import Mathlib

/-!
# Verification of the LearnWise-AI content-extraction / structured-recovery core

Shallow embedding of `backend/content_extractor.py` and the parsing /
retry / rate-limit logic of `backend/gemini_service.py`, with theorems
settling the frozen claims about them.

Python strings are modelled as `List Char`.  Python floats appearing in
the scoring code are modelled as exact rationals (`ℚ`); every comparison
the settled claims depend on (sign tests, the value `10.0`, equality of
identical sums) is exact in IEEE double precision as well, so the
substitution is faithful for the properties proved here.
-/

set_option maxHeartbeats 1000000
set_option maxRecDepth 200000

namespace LearnWise

/-! ## Basic Python-string helpers -/

/-- Whitespace as recognised by Python's `str.strip()` / regex `\s`
(for the ASCII range exercised by this code base). -/
def isPySpace (c : Char) : Bool :=
  c = ' ' || c = '\t' || c = '\n' || c = '\r' || c = Char.ofNat 11 || c = Char.ofNat 12

/-- Python `str.lower()` (ASCII behaviour). -/
def pyLower (s : List Char) : List Char := s.map Char.toLower

/-- Python `str.strip()`: drop leading and trailing whitespace. -/
def pyStrip (s : List Char) : List Char :=
  ((s.dropWhile isPySpace).reverse.dropWhile isPySpace).reverse

/-- Python `sub in s` (substring containment, `True` for the empty substring). -/
def containsSub (sub s : List Char) : Bool :=
  if sub.isPrefixOf s then true
  else match s with
       | [] => false
       | _ :: rest => containsSub sub rest

/-- Auxiliary scanner for Python `s.count(sub)` with a non-empty `sub`:
counts non-overlapping occurrences left to right.  Structural recursion on
a fuel argument (instantiated with `s.length`, always sufficient) keeps the
definition kernel-reducible. -/
def countOccAux (sub : List Char) : ℕ → List Char → ℕ
  | 0, _ => 0
  | _, [] => 0
  | fuel + 1, c :: rest =>
    if sub.isPrefixOf (c :: rest) then
      1 + countOccAux sub fuel (rest.drop (sub.length - 1))
    else countOccAux sub fuel rest

/-- Python `s.count(sub)`: non-overlapping occurrences; `len(s) + 1` when
`sub` is empty. -/
def pyCount (s sub : List Char) : ℕ :=
  if sub.isEmpty then s.length + 1 else countOccAux sub s.length s

/-- Auxiliary scanner for Python `s.split(sep)` with a non-empty separator:
cut at each non-overlapping occurrence, scanning left to right.  Fueled for
kernel reducibility (`fuel = s.length` always suffices). -/
def splitOnSubAux (sep : List Char) : ℕ → List Char → List Char → List (List Char)
  | _, [], acc => [acc.reverse]
  | 0, s, acc => [acc.reverse ++ s]
  | fuel + 1, c :: rest, acc =>
    if sep.isPrefixOf (c :: rest) then
      acc.reverse :: splitOnSubAux sep fuel (rest.drop (sep.length - 1)) []
    else splitOnSubAux sep fuel rest (c :: acc)

/-- Python `s.split(sep)` for a non-empty separator string. -/
def pySplit (s sep : List Char) : List (List Char) :=
  splitOnSubAux sep s.length s []

/-- `['\n', '\n']`, the paragraph separator / section joiner. -/
def nl2 : List Char := ['\n', '\n']

/-- The three-character ellipsis marker `"..."`. -/
def ellipsisMark : List Char := ['.', '.', '.']

/-! ## `backend/content_extractor.py` -/

/-- The stop-word set of `ContentExtractor._extract_keywords`. -/
def stop_words : List (List Char) :=
  ["in", "the", "a", "an", "and", "or", "of", "to", "for", "with", "on", "at"].map
    String.toList

/-- A word character for the regex `\w` (ASCII behaviour: letters, digits,
underscore). -/
def isWordChar (c : Char) : Bool := c.isAlphanum || c = '_'

/-- `re.findall(r'\w+', s)`: the maximal runs of word characters. -/
def wordRuns : List Char → List (List Char)
  | [] => []
  | c :: rest =>
    if isWordChar c then
      match wordRuns rest, rest with
      | [], _ => [[c]]
      | _ :: _, [] => [[c]]
      | w :: ws, d :: _ => if isWordChar d then (c :: w) :: ws else [c] :: w :: ws
    else wordRuns rest

/-- `ContentExtractor._extract_keywords`: tokenize the lowered topic, drop
stop words and words of length ≤ 2, then append the full lowered topic. -/
def _extract_keywords (topic : List Char) : List (List Char) :=
  let words := wordRuns (pyLower topic)
  let keywords := words.filter fun w => decide (w ∉ stop_words) && decide (w.length > 2)
  keywords ++ [pyLower topic]

/-- `c` is an ASCII capital letter (regex `[A-Z]`). -/
def isAsciiUpper (c : Char) : Bool := 'A' ≤ c && c ≤ 'Z'

/-- `re.match(r'\n#{1,6}\s+.+\n', '\n' + L + '\n')` for a newline-free
line `L`: one to six leading `#`, then a whitespace character, then at
least one further character. -/
def isMdHeader (L : List Char) : Bool :=
  let h := (L.takeWhile (· = '#')).length
  1 ≤ h && h ≤ 6 &&
    match L.drop h with
    | c :: _ :: _ => isPySpace c
    | _ => false

/-- `re.match(r'\n\d+\.\s+[A-Z].+\n', '\n' + L + '\n')` for a newline-free
line `L`: leading digits, a dot, a non-empty whitespace run, a capital
letter, and at least one further character. -/
def isNumHeader (L : List Char) : Bool :=
  let d := (L.takeWhile Char.isDigit).length
  1 ≤ d &&
    match L.drop d with
    | '.' :: rest =>
      let w := (rest.takeWhile isPySpace).length
      1 ≤ w &&
        match rest.drop w with
        | c :: _ :: _ => isAsciiUpper c
        | _ => false
    | _ => false

/-- `re.match(r'\n[A-Z][A-Z\s]+\n', '\n' + L + '\n')` for a newline-free
line `L`: a capital letter followed by a non-empty run of capitals and
whitespace spanning the rest of the line. -/
def isCapsHeader (L : List Char) : Bool :=
  match L with
  | c :: rest =>
    isAsciiUpper c && !rest.isEmpty && rest.all fun x => isAsciiUpper x || isPySpace x
  | [] => false

/-- A line matching one of the first three section-marker patterns of
`ContentExtractor._split_into_sections`. -/
def isHeaderLine (L : List Char) : Bool :=
  isMdHeader L || isNumHeader L || isCapsHeader L

/-- The line loop of `_split_into_sections`: close the accumulated section
at each header line (when the accumulator has non-whitespace content),
otherwise keep accumulating `line + '\n'`. -/
def splitLoop : List (List Char) → List Char → List (List Char) → List (List Char)
  | [], current, secs =>
    if (pyStrip current).isEmpty then secs else secs ++ [pyStrip current]
  | line :: rest, current, secs =>
    if isHeaderLine line && !(pyStrip current).isEmpty then
      splitLoop rest (line ++ ['\n']) (secs ++ [pyStrip current])
    else
      splitLoop rest (current ++ line ++ ['\n']) secs

/-- `ContentExtractor._split_into_sections`: split at header lines; if that
yields at most one section, fall back to splitting on blank-line-separated
paragraphs. -/
def _split_into_sections (content : List Char) : List (List Char) :=
  if (splitLoop (pySplit content ['\n']) [] []).length ≤ 1 then
    ((pySplit content nl2).map pyStrip).filter fun p => !p.isEmpty
  else splitLoop (pySplit content ['\n']) [] []

/-- `ContentExtractor._calculate_relevance_score`: occurrence counts
weighted by `len(keyword)/5`, plus a flat `10.0` per keyword occurring in
the section's lowered first line.  (Python computes this in `float`; we use
the exact rational value, which has the same sign and the same value on
every comparison the claims exercise.) -/
def _calculate_relevance_score (sec : List Char) (keywords : List (List Char)) : ℚ :=
  let section_lower := pyLower sec
  let base : ℚ := keywords.foldl
    (fun acc kw => acc + (pyCount section_lower kw : ℚ) * ((kw.length : ℚ) / 5)) 0
  let first_line := pyLower ((pySplit sec ['\n']).headD [])
  keywords.foldl (fun acc kw => if containsSub kw first_line then acc + 10 else acc) base

/-- Insert into a descending-by-score list, after all entries of score
≥ the new one. -/
def insertDesc (p : ℚ × List Char) : List (ℚ × List Char) → List (ℚ × List Char)
  | [] => [p]
  | q :: rest => if q.1 < p.1 then p :: q :: rest else q :: insertDesc p rest

/-- `scored_sections.sort(reverse=True, key=lambda x: x[0])`: the unique
stable descending-by-score ordering (CPython's stable sort with
`reverse=True` keeps equal-keyed elements in original order). -/
def sortDesc (l : List (ℚ × List Char)) : List (ℚ × List Char) :=
  l.foldl (fun acc p => insertDesc p acc) []

/-- The greedy selection loop of `extract_topic_content`: append whole
sections (plus `"\n\n"`) while they fit the budget; when the next section
would overflow but less than 80% of the budget is used, append a truncated
prefix plus `"...\n\n"` and stop; otherwise stop.  (`max_chars * 0.8`
is modelled as the exact rational `max_chars * (4/5)`; the claims settled
here never sit on the one-ulp boundary of the float product.) -/
def selectLoop (max_chars : ℕ) : List (ℚ × List Char) → List Char → List Char
  | [], acc => acc
  | (_, sec) :: rest, acc =>
    if acc.length + sec.length ≤ max_chars then
      selectLoop max_chars rest (acc ++ sec ++ nl2)
    else if (acc.length : ℚ) < (max_chars : ℚ) * (4 / 5) then
      acc ++ sec.take (max_chars - acc.length) ++ ellipsisMark ++ nl2
    else acc

/-- The scored, filtered (score > 0) and stably descending-sorted section
list built by `extract_topic_content`. -/
def scoredSorted (full_content topic : List Char) : List (ℚ × List Char) :=
  sortDesc
    (((_split_into_sections full_content).map
        fun s => (_calculate_relevance_score s (_extract_keywords topic), s)).filter
      fun p => decide (0 < p.1))

/-- `ContentExtractor.extract_topic_content` (Python default
`max_chars = 15000`): greedy budgeted selection of the relevant sections,
falling back to the verbatim first `max_chars` characters when fewer than
1000 characters were assembled, and finally stripped. -/
def extract_topic_content (full_content topic : List Char) (max_chars : ℕ) : List Char :=
  let extracted := selectLoop max_chars (scoredSorted full_content topic) []
  let extracted := if extracted.length < 1000 then full_content.take max_chars else extracted
  pyStrip extracted

/-! ## `backend/gemini_service.py`: JSON values and `json.loads`

A recursive-descent model of Python's strict `json.loads` on the fragment
the service exercises: objects, arrays, strings with escapes, integer and
decimal numbers, `true`/`false`/`null`.  Numbers without fraction or
exponent become `jnum : Int` (Python `int`); decimal/exponent numbers are
recorded as their exact decimal rational (Python rounds them to `float`;
no settled claim inspects such a value).  Unmodelled corners, none of them
reachable from the claims' inputs: `NaN`/`Infinity` literals, surrogate
`\uXXXX` pairs, and duplicate object keys (Python keeps the last, we keep
both in order). -/

inductive JVal where
  | jnull : JVal
  | jb : Bool → JVal
  | jnum : Int → JVal
  | jflt : ℚ → JVal
  | jstr : List Char → JVal
  | jarr : List JVal → JVal
  | jobj : List (List Char × JVal) → JVal

/-- JSON whitespace (`' '`, `'\t'`, `'\n'`, `'\r'`), skipped between tokens. -/
def skipWs (s : List Char) : List Char :=
  s.dropWhile fun c => c = ' ' || c = '\t' || c = '\n' || c = '\r'

/-- A single-character JSON string escape (`\"`, `\\`, `\/`, `\b`, `\f`,
`\n`, `\r`, `\t`). -/
def escChar (e : Char) : Option Char :=
  if e = '"' then some '"'
  else if e = '\\' then some '\\'
  else if e = '/' then some '/'
  else if e = 'b' then some (Char.ofNat 8)
  else if e = 'f' then some (Char.ofNat 12)
  else if e = 'n' then some '\n'
  else if e = 'r' then some '\r'
  else if e = 't' then some '\t'
  else none

/-- Hex digit value for `\uXXXX` escapes. -/
def hexVal (c : Char) : Option ℕ :=
  if c.isDigit then some (c.toNat - 48)
  else if 'a' ≤ c && c ≤ 'f' then some (c.toNat - 87)
  else if 'A' ≤ c && c ≤ 'F' then some (c.toNat - 70)
  else none

/-- Parse the body of a JSON string (after the opening quote), rejecting
raw control characters as strict `json.loads` does. -/
def parseStringBody : List Char → Option (List Char × List Char)
  | [] => none
  | '"' :: r => some ([], r)
  | '\\' :: 'u' :: h1 :: h2 :: h3 :: h4 :: r =>
    match hexVal h1, hexVal h2, hexVal h3, hexVal h4 with
    | some a, some b, some c, some d =>
      (parseStringBody r).map fun p => (Char.ofNat (((a * 16 + b) * 16 + c) * 16 + d) :: p.1, p.2)
    | _, _, _, _ => none
  | '\\' :: e :: r =>
    match escChar e with
    | some c => (parseStringBody r).map fun p => (c :: p.1, p.2)
    | none => none
  | c :: r =>
    if c.toNat < 32 then none
    else (parseStringBody r).map fun p => (c :: p.1, p.2)

/-- Decimal value of a digit run. -/
def digitsVal (ds : List Char) : ℕ :=
  ds.foldl (fun a c => a * 10 + (c.toNat - 48)) 0

/-- Parse an optional exponent part `[eE][+-]?digits`; like Python's number
regex, a malformed exponent is simply not consumed. -/
def parseExpPart (s : List Char) : Option (Int × List Char) :=
  match s with
  | 'e' :: r | 'E' :: r =>
    let (sg, r1) : Int × List Char :=
      match r with
      | '+' :: t => (1, t)
      | '-' :: t => (-1, t)
      | _ => (1, r)
    let es := r1.takeWhile Char.isDigit
    if es.isEmpty then none else some (sg * (digitsVal es : Int), r1.drop es.length)
  | _ => none

/-- Scale a rational by a signed power of ten. -/
def scalePow10 (q : ℚ) (e : Int) : ℚ :=
  match e with
  | .ofNat n => q * (10 : ℚ) ^ n
  | .negSucc n => q / (10 : ℚ) ^ (n + 1)

/-- Parse a JSON number at the head of `s` (head is `-` or a digit),
following Python's number regex `(-?(?:0|[1-9]\d*))(\.\d+)?([eE][-+]?\d+)?`. -/
def parseNumber (s : List Char) : Option (JVal × List Char) :=
  let (neg, s1) : Bool × List Char :=
    match s with
    | '-' :: r => (true, r)
    | _ => (false, s)
  let ds := s1.takeWhile Char.isDigit
  if ds.isEmpty then none
  else if 1 < ds.length && ds.headD 'x' = '0' then none
  else
    let s2 := s1.drop ds.length
    let iv : Int := if neg then -(digitsVal ds : Int) else (digitsVal ds : Int)
    match s2 with
    | '.' :: r =>
      let fs := r.takeWhile Char.isDigit
      if fs.isEmpty then none
      else
        let s3 := r.drop fs.length
        let mant : ℚ := (iv : ℚ) +
          (if neg then -1 else 1) * (digitsVal fs : ℚ) / (10 : ℚ) ^ fs.length
        match parseExpPart s3 with
        | some (e, s4) => some (.jflt (scalePow10 mant e), s4)
        | none => some (.jflt mant, s3)
    | _ =>
      match parseExpPart s2 with
      | some (e, s3) => some (.jflt (scalePow10 (iv : ℚ) e), s3)
      | none => some (.jnum iv, s2)

/-- Parser modes: a value, array elements after `[`, array elements after
a parsed element, object members after `{`, object members after a parsed
member. -/
inductive PMode where
  | val | arrS | arrT | objS | objT

/-- Intermediate parse results for the three modes. -/
inductive PRes where
  | v : JVal → PRes
  | vs : List JVal → PRes
  | ms : List (List Char × JVal) → PRes

/-- The recursive-descent core, structurally recursive on a fuel argument
so that it is kernel-reducible; `loads` supplies ample fuel. -/
def parseF : ℕ → PMode → List Char → Option (PRes × List Char)
  | 0, _, _ => none
  | fuel + 1, .val, s =>
    match skipWs s with
    | [] => none
    | c :: r =>
      if c = '{' then
        match parseF fuel .objS r with
        | some (.ms l, rest) => some (.v (.jobj l), rest)
        | _ => none
      else if c = '[' then
        match parseF fuel .arrS r with
        | some (.vs l, rest) => some (.v (.jarr l), rest)
        | _ => none
      else if c = '"' then (parseStringBody r).map fun p => (.v (.jstr p.1), p.2)
      else if c = 't' then
        if ['r', 'u', 'e'].isPrefixOf r then some (.v (.jb true), r.drop 3) else none
      else if c = 'f' then
        if ['a', 'l', 's', 'e'].isPrefixOf r then some (.v (.jb false), r.drop 4) else none
      else if c = 'n' then
        if ['u', 'l', 'l'].isPrefixOf r then some (.v .jnull, r.drop 3) else none
      else if c = '-' || c.isDigit then (parseNumber (c :: r)).map fun p => (.v p.1, p.2)
      else none
  | fuel + 1, .arrS, s =>
    match skipWs s with
    | ']' :: r => some (.vs [], r)
    | _ =>
      match parseF fuel .val s with
      | some (.v x, r1) =>
        match parseF fuel .arrT r1 with
        | some (.vs xs, r2) => some (.vs (x :: xs), r2)
        | _ => none
      | _ => none
  | fuel + 1, .arrT, s =>
    match skipWs s with
    | ']' :: r => some (.vs [], r)
    | ',' :: r =>
      match parseF fuel .val r with
      | some (.v x, r1) =>
        match parseF fuel .arrT r1 with
        | some (.vs xs, r2) => some (.vs (x :: xs), r2)
        | _ => none
      | _ => none
    | _ => none
  | fuel + 1, .objS, s =>
    match skipWs s with
    | '}' :: r => some (.ms [], r)
    | '"' :: r =>
      match parseStringBody r with
      | some (key, r1) =>
        match skipWs r1 with
        | ':' :: r2 =>
          match parseF fuel .val r2 with
          | some (.v x, r3) =>
            match parseF fuel .objT r3 with
            | some (.ms ms, r4) => some (.ms ((key, x) :: ms), r4)
            | _ => none
          | _ => none
        | _ => none
      | none => none
    | _ => none
  | fuel + 1, .objT, s =>
    match skipWs s with
    | '}' :: r => some (.ms [], r)
    | ',' :: r =>
      match skipWs r with
      | '"' :: r0 =>
        match parseStringBody r0 with
        | some (key, r1) =>
          match skipWs r1 with
          | ':' :: r2 =>
            match parseF fuel .val r2 with
            | some (.v x, r3) =>
              match parseF fuel .objT r3 with
              | some (.ms ms, r4) => some (.ms ((key, x) :: ms), r4)
              | _ => none
            | _ => none
          | _ => none
        | none => none
      | _ => none
    | _ => none

/-- `json.loads`: parse one value and require only whitespace to follow;
`none` models `json.JSONDecodeError`. -/
def loads (s : List Char) : Option JVal :=
  match parseF (2 * s.length + 8) .val s with
  | some (.v x, rest) => if (skipWs rest).isEmpty then some x else none
  | _ => none

/-! ## `gemini_service.generate_learning_chunks`: structured recovery -/

/-- Python `s.find(sub)`: first index where `sub` occurs, `-1` if none. -/
def pyFind (s sub : List Char) : Int :=
  match (List.range (s.length + 1)).filter (fun i => sub.isPrefixOf (s.drop i)) with
  | [] => -1
  | i :: _ => i

/-- Python `s.rfind(sub)`: last index where `sub` occurs, `-1` if none. -/
def pyRfind (s sub : List Char) : Int :=
  match ((List.range (s.length + 1)).filter (fun i => sub.isPrefixOf (s.drop i))).reverse with
  | [] => -1
  | i :: _ => i

/-- The markdown-fence cleanup loop of `generate_learning_chunks` (strip a
leading `marker` and a trailing ` ``` ` for each of the three markers). -/
def stripMarkers (t : List Char) : List Char :=
  (["```json", "```", "```JSON"].map String.toList).foldl
    (fun text marker =>
      let text := if marker.isPrefixOf text then pyStrip (text.drop marker.length) else text
      if ("```".toList).isSuffixOf text then pyStrip (text.take (text.length - 3)) else text)
    t

/-- Lines 169–177: drop prose before the first `[` (when not at index 0)
and after the last `]` (when an interior one exists). -/
def bracketTrim (t : List Char) : List Char :=
  let t :=
    let bs := pyFind t ['[']
    if bs > 0 then t.drop bs.toNat else t
  let be := pyRfind t [']']
  if be > 0 && be < (t.length : Int) - 1 then t.take (be.toNat + 1) else t

/-- `json_text.replace("'", "\\'")` of the quote-repair tier. -/
def replaceQuote (s : List Char) : List Char :=
  s.flatMap fun c => if c = Char.ofNat 39 then [Char.ofNat 92, Char.ofNat 39] else [c]

/-- Matcher for the tail-cleanup regexes `,\s*"[^"]*$` / `:\s*"[^"]*$` at
the current position: `opener`, optional whitespace, a quote, and no
further quote up to the end of the string. -/
def matchTailPat (opener : Char) (s : List Char) : Bool :=
  match s with
  | c :: rest =>
    c = opener &&
      match rest.dropWhile isPySpace with
      | '"' :: tail => !tail.contains '"'
      | _ => false
  | [] => false

/-- `re.sub(r'<opener>\s*"[^"]*$', '', s)`: remove the leftmost (hence
only) match of the end-anchored pattern. -/
def subTail (opener : Char) (s : List Char) : List Char :=
  match (List.range s.length).filter (fun i => matchTailPat opener (s.drop i)) with
  | [] => s
  | i :: _ => s.take i

/-- `if not json_text.endswith(']'): json_text += ']'` (lines 258–259). -/
def closeBracket (jt : List Char) : List Char :=
  if ([']'] : List Char).isSuffixOf jt then jt else jt ++ [']']

/-- Parse a closed-off truncated array (lines 244–265); on failure run the
aggressive tail cleanup (lines 252–262: strip a dangling `, "...` fragment,
then a dangling `: "...` fragment, then re-append `]` if needed) and
reparse; on failure give up with the empty array. -/
def salvageParse (jt : List Char) : JVal :=
  match loads jt with
  | some v => v
  | none =>
    match loads (closeBracket (subTail ':' (subTail ',' jt))) with
    | some v => v
    | none => .jarr []

/-- The direct-parse tier with quote-repair fallback (lines 193–218):
`json.loads` on the bracketed slice, then on the `'` → `\'` repaired text,
then give up with the empty array. -/
def directParse (json_text : List Char) : JVal :=
  match loads json_text with
  | some v => v
  | none =>
    match loads (replaceQuote json_text) with
    | some v => v
    | none => .jarr []

/-- The truncation-salvage tier (lines 219–265): close the array at the
last `},` boundary, else at the last `}`, and parse (with the aggressive
cleanup retry inside `salvageParse`); with no complete record, give up. -/
def truncationSalvage (json_text : List Char) : JVal :=
  if pyRfind json_text ['\x7d', ','] > 0 then
    salvageParse (json_text.take ((pyRfind json_text ['\x7d', ',']).toNat + 1) ++ [']'])
  else if pyRfind json_text ['\x7d'] > 0 then
    salvageParse (json_text.take ((pyRfind json_text ['\x7d']).toNat + 1) ++ [']'])
  else .jarr []

/-- Tier dispatch on the cleaned text (lines 181–269): both brackets
present → direct parse of the slice between them; `[` without `]` →
truncation salvage from the `[`; otherwise no structured output. -/
def directOrSalvage (text : List Char) : JVal :=
  if pyFind text ['['] ≥ 0 && pyRfind text [']'] > pyFind text ['['] then
    directParse ((text.take ((pyRfind text [']']).toNat + 1)).drop (pyFind text ['[']).toNat)
  else if pyFind text ['['] ≥ 0 && pyRfind text [']'] = -1 then
    truncationSalvage (text.drop (pyFind text ['[']).toNat)
  else .jarr []

/-- The parsing/recovery logic of `generate_learning_chunks` (lines
157–269), from the stripped response text onward: fence cleanup, bracket
trimming, direct parse, quote-repair reparse, truncation salvage at the
last `},` / `}` boundary, aggressive tail cleanup, and the final
empty-array fallback.  Python's caught `JSONDecodeError`s appear as `none`
results of `loads`; every `return []` is `.jarr []`.  (The surrounding
`try/except` of the Python function catches exceptions of the *network*
call as well; the parsing tiers themselves, modelled here, never raise.) -/
def generate_learning_chunks_parse (raw : List Char) : JVal :=
  directOrSalvage (pyStrip (bracketTrim (stripMarkers (pyStrip raw))))

/-! ## `gemini_service._call_with_retry` and `_rate_limit` -/

/-- `'429' in error_str or 'quota' in error_str.lower()`. -/
def isRateLimitError (e : List Char) : Bool :=
  containsSub ("429".toList) e || containsSub ("quota".toList) (pyLower e)

/-- `'504' in error_str or 'timeout' in error_str.lower() or 'timed out'
in error_str.lower()`. -/
def isTimeoutError (e : List Char) : Bool :=
  containsSub ("504".toList) e || containsSub ("timeout".toList) (pyLower e) ||
    containsSub ("timed out".toList) (pyLower e)

/-- Outcome of `_call_with_retry`: a response, the `None` sentinel, or a
propagated exception (carrying the error text). -/
inductive RetryOutcome (α : Type) where
  | resp : α → RetryOutcome α
  | sentinelNone : RetryOutcome α
  | raised : List Char → RetryOutcome α

/-- The attempt loop of `_call_with_retry`.  `upstream i` is the result of
the `i`-th `generate_content` call (a response, or the text of the raised
exception); `remaining` counts the iterations left in
`range(max_retries + 1)`.  The second component counts upstream calls
issued.  Sleeps (including the parsed `retry in <n>` delay) only affect
timing and are not modelled. -/
def retryLoop (upstream : ℕ → Except (List Char) α) (max_retries : ℕ) :
    ℕ → ℕ → RetryOutcome α × ℕ
  | _, 0 => (.sentinelNone, 0)
  | attempt, remaining + 1 =>
    match upstream attempt with
    | .ok r => (.resp r, 1)
    | .error e =>
      if isRateLimitError e then
        if attempt < max_retries then
          let p := retryLoop upstream max_retries (attempt + 1) remaining
          (p.1, p.2 + 1)
        else (.raised e, 1)
      else if isTimeoutError e then
        if attempt < max_retries then
          let p := retryLoop upstream max_retries (attempt + 1) remaining
          (p.1, p.2 + 1)
        else (.sentinelNone, 1)
      else (.raised e, 1)

/-- `GeminiService._call_with_retry` (Python default `max_retries = 2`,
i.e. three total tries). -/
def _call_with_retry (upstream : ℕ → Except (List Char) α) (max_retries : ℕ) :
    RetryOutcome α × ℕ :=
  retryLoop upstream max_retries 0 (max_retries + 1)

/-- `GeminiService.min_request_interval` (seconds). -/
def min_request_interval : ℚ := 6

/-- The mutable clock state of `GeminiService._rate_limit`: the current
wall-clock reading and the recorded `last_request_time`. -/
structure RateState where
  now : ℚ
  last_request_time : ℚ

/-- One `_rate_limit()` call.  `d1` is the wall-clock drift between the
previous update and this call's `time.time()`; `d2` the drift between the
sleep's end and the final `time.time()` (both are non-negative in any real
execution; `time.sleep(w)` suspends for at least `w`, any excess being
absorbed into `d2`). -/
def _rate_limit (d1 d2 : ℚ) (s : RateState) : RateState :=
  let current_time := s.now + d1
  let time_since_last := current_time - s.last_request_time
  let afterSleep :=
    if time_since_last < min_request_interval then
      current_time + (min_request_interval - time_since_last)
    else current_time
  let t2 := afterSleep + d2
  { now := t2, last_request_time := t2 }

/-- Run a back-to-back sequence of `_rate_limit()` calls and record the
`last_request_time` written by each. -/
def runRateCalls : List (ℚ × ℚ) → RateState → List ℚ
  | [], _ => []
  | d :: rest, s =>
    let s' := _rate_limit d.1 d.2 s
    s'.last_request_time :: runRateCalls rest s'

/-! ## Whitespace-interleaved reconstruction (for the Segmenter claims) -/

/-- Glue alternating whitespace pieces and sections:
`glueWs [w1, …, wn] [s1, …, sn] = w1 ++ s1 ++ ⋯ ++ wn ++ sn`. -/
def glueWs : List (List Char) → List (List Char) → List Char
  | w :: ws, s :: ss => w ++ s ++ glueWs ws ss
  | _, _ => []

/-- The text consumed by the segmenter's line loop: every line with a
trailing `'\n'` appended (Python accumulates `line + '\n'`). -/
def joinLinesNl (lines : List (List Char)) : List Char :=
  (lines.map fun l => l ++ ['\n']).flatten

/-- Each part preceded by the separator. -/
def sepJoin (sep : List Char) (ps : List (List Char)) : List Char :=
  (ps.map fun p => sep ++ p).flatten

/-- Parts joined with the separator between consecutive parts. -/
def joinParts (sep : List Char) : List (List Char) → List Char
  | [] => []
  | p :: rest => p ++ sepJoin sep rest

/-- The paragraph fallback's `[p.strip() for p in … if p.strip()]`. -/
def filterStrip (ps : List (List Char)) : List (List Char) :=
  (ps.map pyStrip).filter fun x => !x.isEmpty

/-! ## Theorems -/

/-- The retry loop issues at most `remaining` upstream calls. -/
theorem retryLoop_calls_le {α : Type} (u : ℕ → Except (List Char) α) (mr : ℕ) :
    ∀ remaining attempt, (retryLoop u mr attempt remaining).2 ≤ remaining := by
  intro remaining
  induction remaining with
  | zero => intro attempt; simp [retryLoop]
  | succ n ih =>
    intro attempt
    simp only [retryLoop]
    cases hu : u attempt with
    | ok r => simp
    | error e =>
      dsimp only
      split
      · split
        · have := ih (attempt + 1); dsimp only; omega
        · simp
      · split
        · split
          · have := ih (attempt + 1); dsimp only; omega
          · simp
        · simp

/-- C7: with the default `max_retries = 2`, `_call_with_retry` issues at
most 3 upstream calls before returning a response, returning the `None`
sentinel, or propagating a failure. -/
theorem C7_retry_bound {α : Type} (upstream : ℕ → Except (List Char) α) :
    (_call_with_retry upstream 2).2 ≤ 3 :=
  retryLoop_calls_le upstream 2 3 0

/-- C4: if every attempt fails with a timeout-classified error (not
rate-limit-classified, since the code tests rate limits first), the
default-`max_retries` call returns the `None` sentinel rather than
raising; if every attempt fails rate-limit-classified, the final
exception propagates. -/
theorem C4_timeout_sentinel_ratelimit_raises :
    (∀ (u : ℕ → Except (List Char) ℕ) (e : ℕ → List Char),
        (∀ i, u i = .error (e i) ∧ isRateLimitError (e i) = false ∧
          isTimeoutError (e i) = true) →
        (_call_with_retry u 2).1 = .sentinelNone) ∧
    (∀ (u : ℕ → Except (List Char) ℕ) (e : ℕ → List Char),
        (∀ i, u i = .error (e i) ∧ isRateLimitError (e i) = true) →
        (_call_with_retry u 2).1 = .raised (e 2)) := by
  constructor
  · intro u e h
    simp [_call_with_retry, retryLoop, (h 0).1, (h 1).1, (h 2).1,
      (h 0).2.1, (h 1).2.1, (h 2).2.1, (h 0).2.2, (h 1).2.2, (h 2).2.2]
  · intro u e h
    simp [_call_with_retry, retryLoop, (h 0).1, (h 1).1, (h 2).1,
      (h 0).2, (h 1).2, (h 2).2]

/-- Witness for C4 at concrete error texts. -/
theorem C4_witness :
    ((_call_with_retry (fun _ => .error ("timed out".toList)) 2 :
        RetryOutcome ℕ × ℕ).1 = .sentinelNone) ∧
    ((_call_with_retry (fun _ => .error ("429: quota".toList)) 2 :
        RetryOutcome ℕ × ℕ).1 = .raised ("429: quota".toList)) :=
  ⟨C4_timeout_sentinel_ratelimit_raises.1 (fun _ => .error ("timed out".toList))
      (fun _ => "timed out".toList)
      (fun _ => ⟨rfl, show isRateLimitError ("timed out".toList) = false by decide,
        show isTimeoutError ("timed out".toList) = true by decide⟩),
    C4_timeout_sentinel_ratelimit_raises.2 (fun _ => .error ("429: quota".toList))
      (fun _ => "429: quota".toList)
      (fun _ => ⟨rfl, show isRateLimitError ("429: quota".toList) = true by decide⟩)⟩

/-- One `_rate_limit` call advances the recorded timestamp by at least the
minimum interval, and leaves the clock equal to the recorded timestamp. -/
theorem rate_limit_step (d1 d2 : ℚ) (s : RateState) (h1 : 0 ≤ d1) (h2 : 0 ≤ d2)
    (hinv : s.last_request_time ≤ s.now) :
    s.last_request_time + min_request_interval ≤ (_rate_limit d1 d2 s).last_request_time ∧
    (_rate_limit d1 d2 s).last_request_time = (_rate_limit d1 d2 s).now := by
  unfold _rate_limit min_request_interval
  dsimp only
  refine ⟨?_, rfl⟩
  split <;> linarith

/-- The recorded timestamps of a back-to-back call sequence form a chain
ascending by ≥ `min_request_interval`, starting from the previous record. -/
theorem runRateCalls_chain :
    ∀ (ds : List (ℚ × ℚ)) (s : RateState), (∀ d ∈ ds, 0 ≤ d.1 ∧ 0 ≤ d.2) →
      s.last_request_time ≤ s.now →
      List.Chain (fun a b => a + min_request_interval ≤ b) s.last_request_time
        (runRateCalls ds s) := by
  intro ds
  induction ds with
  | nil => intro s _ _; exact List.Chain.nil
  | cons d rest ih =>
    intro s hd hinv
    simp only [runRateCalls]
    have hstep := rate_limit_step d.1 d.2 s (hd d (by simp)).1 (hd d (by simp)).2 hinv
    exact List.Chain.cons hstep.1
      (ih (_rate_limit d.1 d.2 s) (fun x hx => hd x (List.mem_cons_of_mem d hx))
        (le_of_eq hstep.2))

/-- C8: in any back-to-back sequence of `_rate_limit()` calls on one
client instance (arbitrary non-negative clock drifts around each call),
every pair of consecutively recorded `last_request_time` stamps is at
least `min_request_interval = 6` seconds apart. -/
theorem C8_rate_spacing (ds : List (ℚ × ℚ)) (s : RateState)
    (hd : ∀ d ∈ ds, 0 ≤ d.1 ∧ 0 ≤ d.2) (hinv : s.last_request_time ≤ s.now) :
    List.Chain' (fun a b => a + min_request_interval ≤ b) (runRateCalls ds s) := by
  have h := runRateCalls_chain ds s hd hinv
  cases hc : runRateCalls ds s with
  | nil => trivial
  | cons t rest =>
    rw [hc] at h
    cases h with
    | cons _ htail => exact htail

/-- Witness for C8: three calls with concrete drifts from a concrete
initial state. -/
theorem C8_rate_spacing_witness :
    List.Chain' (fun a b => a + min_request_interval ≤ b)
      (runRateCalls [(0, 0), (1, 0), (0, 2)] ⟨100, 0⟩) :=
  C8_rate_spacing [(0, 0), (1, 0), (0, 2)] ⟨100, 0⟩ (by decide) (by norm_num)

/-- Stripping cannot lengthen a string. -/
theorem pyStrip_length_le (s : List Char) : (pyStrip s).length ≤ s.length := by
  unfold pyStrip
  rw [List.length_reverse]
  calc ((s.dropWhile isPySpace).reverse.dropWhile isPySpace).length
      ≤ (s.dropWhile isPySpace).reverse.length := (List.dropWhile_sublist _).length_le
    _ = (s.dropWhile isPySpace).length := List.length_reverse _
    _ ≤ s.length := (List.dropWhile_sublist _).length_le

/-- Stripping a string that ends in the two-newline joiner removes at
least those two characters. -/
theorem pyStrip_append_nl2_length_le (X : List Char) :
    (pyStrip (X ++ nl2)).length ≤ X.length := by
  unfold pyStrip nl2
  rw [List.dropWhile_append]
  split
  · simp [List.dropWhile, isPySpace]
  · rw [List.reverse_append]
    have : (['\n', '\n'] : List Char).reverse = ['\n', '\n'] := by decide
    rw [this]
    simp only [List.cons_append, List.nil_append]
    have hdw : (('\n' :: '\n' :: (X.dropWhile isPySpace).reverse).dropWhile isPySpace) =
        (X.dropWhile isPySpace).reverse.dropWhile isPySpace := by
      simp [List.dropWhile, isPySpace]
    rw [hdw, List.length_reverse]
    calc ((X.dropWhile isPySpace).reverse.dropWhile isPySpace).length
        ≤ (X.dropWhile isPySpace).reverse.length := (List.dropWhile_sublist _).length_le
      _ = (X.dropWhile isPySpace).length := List.length_reverse _
      _ ≤ X.length := (List.dropWhile_sublist _).length_le

/-- The greedy selector keeps its accumulator within `budget + 2`
characters (the trailing joiner) and its final output within
`budget + 5`, the output always ending in the two-newline joiner. -/
theorem selectLoop_budget (B : ℕ) :
    ∀ (ss : List (ℚ × List Char)) (acc : List Char),
      acc.length ≤ B + 2 → (acc ≠ [] → ∃ X, acc = X ++ nl2 ∧ X.length ≤ B) →
      (selectLoop B ss acc).length ≤ B + 5 ∧
        (selectLoop B ss acc ≠ [] →
          ∃ X, selectLoop B ss acc = X ++ nl2 ∧ X.length ≤ B + 3) := by
  intro ss
  induction ss with
  | nil =>
    intro acc h1 h2
    refine ⟨by simpa [selectLoop] using by omega, ?_⟩
    intro hne
    simp only [selectLoop] at hne ⊢
    obtain ⟨X, hX, hXle⟩ := h2 hne
    exact ⟨X, hX, by omega⟩
  | cons p rest ih =>
    intro acc h1 h2
    obtain ⟨sc, sec⟩ := p
    simp only [selectLoop]
    split
    · -- whole section fits
      rename_i hfit
      refine ih (acc ++ sec ++ nl2) ?_ ?_
      · simp only [List.length_append, nl2, List.length_cons, List.length_nil] at *
        omega
      · intro _
        exact ⟨acc ++ sec, by simp, by
          simp only [List.length_append] at *
          omega⟩
    · split
      · -- partial section admitted, then stop
        rename_i hnofit hlt
        have haccB : acc.length ≤ B := by
          have h45 : ((B : ℚ)) * (4 / 5) ≤ (B : ℚ) := by
            have : (0 : ℚ) ≤ (B : ℚ) := by positivity
            nlinarith
          have : (acc.length : ℚ) < (B : ℚ) := lt_of_lt_of_le hlt h45
          exact_mod_cast le_of_lt this
        have htake : (sec.take (B - acc.length)).length ≤ B - acc.length :=
          List.length_take_le _ _
        constructor
        · simp only [List.length_append, nl2, ellipsisMark, List.length_cons,
            List.length_nil]
          omega
        · intro _
          refine ⟨acc ++ sec.take (B - acc.length) ++ ellipsisMark, by simp, ?_⟩
          simp only [List.length_append, ellipsisMark, List.length_cons, List.length_nil]
          omega
      · -- stop without truncating
        refine ⟨by omega, ?_⟩
        intro hne
        obtain ⟨X, hX, hXle⟩ := h2 hne
        exact ⟨X, hX, by omega⟩

unseal Rat.mul Rat.add Rat.inv in
/-- C1 as stated is falsified at budget 995: a single relevant section of
1000 characters triggers the partial-truncation branch, whose
`section[:remaining] + "...\n\n"` exceeds the budget by the three
ellipsis characters after stripping (998 > 995). -/
theorem C1_counterexample :
    995 <
      (extract_topic_content ("zzz".toList ++ List.replicate 997 'a')
        ("zzz".toList) 995).length := by
  decide

/-- C1 amended: the extracted content never exceeds the budget by more
than the three-character ellipsis marker, i.e. its length is at most
`max_chars + 3` (and the overshoot can only arise in the
partial-truncation branch). -/
theorem C1_budget_amended (D T : List Char) (B : ℕ) :
    (extract_topic_content D T B).length ≤ B + 3 := by
  unfold extract_topic_content
  have hQ := selectLoop_budget B (scoredSorted D T) [] (by simp) (by simp)
  dsimp only
  split
  · calc (pyStrip (D.take B)).length ≤ (D.take B).length := pyStrip_length_le _
      _ ≤ B := List.length_take_le _ _
      _ ≤ B + 3 := by omega
  · rename_i hlong
    have hne : selectLoop B (scoredSorted D T) [] ≠ [] := by
      intro h0
      rw [h0] at hlong
      simp at hlong
    obtain ⟨X, hX, hXle⟩ := hQ.2 hne
    rw [hX]
    exact le_trans (pyStrip_append_nl2_length_le X) hXle

/-- A string that strips to empty is pure whitespace. -/
theorem pyStrip_eq_nil_imp {s : List Char} (h : pyStrip s = []) :
    ∀ c ∈ s, isPySpace c = true := by
  unfold pyStrip at h
  rw [List.reverse_eq_nil_iff, List.dropWhile_eq_nil_iff] at h
  intro c hc
  have hsplit := List.takeWhile_append_dropWhile isPySpace s
  rw [← hsplit] at hc
  rcases List.mem_append.1 hc with hl | hr
  · exact List.mem_takeWhile_imp hl
  · exact h c (List.mem_reverse.2 hr)

/-- A non-empty stripped string contains a non-whitespace character. -/
theorem pyStrip_exists_not_space {y : List Char} (h : pyStrip y ≠ []) :
    ∃ c ∈ pyStrip y, isPySpace c = false := by
  unfold pyStrip at *
  set t := (y.dropWhile isPySpace).reverse with ht
  have hne : t.dropWhile isPySpace ≠ [] := by
    intro h0
    exact h (by rw [h0]; rfl)
  refine ⟨(t.dropWhile isPySpace).head hne, List.mem_reverse.2 (List.head_mem hne), ?_⟩
  have := List.head_dropWhile_not isPySpace t (w := hne)
  simp_all

/-- Every section produced by `_split_into_sections` is the strip of some
string and is non-empty. -/
theorem splitLoop_shape :
    ∀ (lines : List (List Char)) (current : List Char) (secs : List (List Char)),
      (∀ s ∈ secs, (∃ y, s = pyStrip y) ∧ s ≠ []) →
      ∀ s ∈ splitLoop lines current secs, (∃ y, s = pyStrip y) ∧ s ≠ [] := by
  intro lines
  induction lines with
  | nil =>
    intro current secs hsecs s hs
    simp only [splitLoop] at hs
    split at hs
    · exact hsecs s hs
    · rcases List.mem_append.1 hs with h | h
      · exact hsecs s h
      · rename_i hne
        rw [List.mem_singleton.1 h]
        exact ⟨⟨current, rfl⟩, by simpa [List.isEmpty_iff] using hne⟩
  | cons line rest ih =>
    intro current secs hsecs s hs
    simp only [splitLoop] at hs
    split at hs
    · rename_i hcond
      refine ih _ _ ?_ s hs
      intro q hq
      rcases List.mem_append.1 hq with h | h
      · exact hsecs q h
      · rw [List.mem_singleton.1 h]
        refine ⟨⟨current, rfl⟩, ?_⟩
        rw [Bool.and_eq_true] at hcond
        simpa [List.isEmpty_iff] using hcond.2
    · exact ih _ _ hsecs s hs

/-- Shape of the sections list of `_split_into_sections`. -/
theorem sections_shape (D : List Char) :
    ∀ s ∈ _split_into_sections D, (∃ y, s = pyStrip y) ∧ s ≠ [] := by
  intro s hs
  unfold _split_into_sections at hs
  split at hs
  · rcases List.mem_filter.1 hs with ⟨hmap, hne⟩
    rcases List.mem_map.1 hmap with ⟨y, _, rfl⟩
    exact ⟨⟨y, rfl⟩, by simpa [List.isEmpty_iff] using hne⟩
  · exact splitLoop_shape _ [] [] (by simp) s hs

/-- Membership is preserved backwards through `insertDesc`. -/
theorem mem_insertDesc {q p : ℚ × List Char} :
    ∀ {l : List (ℚ × List Char)}, q ∈ insertDesc p l → q = p ∨ q ∈ l := by
  intro l
  induction l with
  | nil => intro h; simpa [insertDesc] using h
  | cons r rest ih =>
    intro h
    simp only [insertDesc] at h
    by_cases hc : r.1 < p.1
    · rw [if_pos hc, List.mem_cons] at h
      rcases h with h | h
      · exact Or.inl h
      · exact Or.inr h
    · rw [if_neg hc, List.mem_cons] at h
      rcases h with h | h
      · exact Or.inr (by simp [h])
      · rcases ih h with h' | h'
        · exact Or.inl h'
        · exact Or.inr (List.mem_cons_of_mem _ h')

/-- Membership is preserved backwards through the stable sort. -/
theorem mem_sortDesc {q : ℚ × List Char} {l : List (ℚ × List Char)}
    (h : q ∈ sortDesc l) : q ∈ l := by
  suffices haux : ∀ (l acc : List (ℚ × List Char)),
      q ∈ l.foldl (fun a p => insertDesc p a) acc → q ∈ acc ∨ q ∈ l by
    rcases haux l [] h with h' | h'
    · simp at h'
    · exact h'
  intro l
  induction l with
  | nil => intro acc h'; exact Or.inl h'
  | cons p rest ih =>
    intro acc h'
    rcases ih (insertDesc p acc) h' with h'' | h''
    · rcases mem_insertDesc h'' with h3 | h3
      · exact Or.inr (by simp [h3])
      · exact Or.inl h3
    · exact Or.inr (List.mem_cons_of_mem _ h'')

/-- Every section fed to the selector contains a non-whitespace character. -/
theorem scoredSorted_nonws (D T : List Char) :
    ∀ p ∈ scoredSorted D T, ∃ c ∈ p.2, isPySpace c = false := by
  intro p hp
  have hmem := mem_sortDesc hp
  rcases List.mem_filter.1 hmem with ⟨hmap, _⟩
  rcases List.mem_map.1 hmap with ⟨sec, hsec, rfl⟩
  obtain ⟨⟨y, hy⟩, hne⟩ := sections_shape D sec hsec
  subst hy
  exact pyStrip_exists_not_space hne

/-- The selector's output is empty or contains a non-whitespace
character (given that every input section does). -/
theorem selectLoop_keeps_nonws (B : ℕ) :
    ∀ (ss : List (ℚ × List Char)) (acc : List Char),
      (∀ p ∈ ss, ∃ c ∈ p.2, isPySpace c = false) →
      (acc = [] ∨ ∃ c ∈ acc, isPySpace c = false) →
      (selectLoop B ss acc = [] ∨
        ∃ c ∈ selectLoop B ss acc, isPySpace c = false) := by
  intro ss
  induction ss with
  | nil => intro acc _ hacc; simpa [selectLoop] using hacc
  | cons p rest ih =>
    intro acc hss hacc
    obtain ⟨sc, sec⟩ := p
    simp only [selectLoop]
    split
    · refine ih _ (fun q hq => hss q (List.mem_cons_of_mem _ hq)) ?_
      obtain ⟨c, hc, hcw⟩ := hss (sc, sec) (by simp)
      exact Or.inr ⟨c, by simp [hc], hcw⟩
    · split
      · refine Or.inr ⟨'.', ?_, by decide⟩
        simp [ellipsisMark]
      · exact hacc

/-- C5 as stated is falsified by a whitespace-only document: the verbatim
fallback takes the first `budget` characters and then strips them, so a
non-empty `" "` yields the empty extraction. -/
theorem C5_counterexample :
    (" ".toList ≠ ([] : List Char)) ∧
      extract_topic_content (" ".toList) ("a".toList) 15000 = [] := by
  constructor
  · decide
  · rfl

/-- C5 amended: if the first `budget` characters of the document contain a
non-whitespace character, the extraction is non-empty (the whitespace-only
counterexample is exactly what the claim must exclude, since the result is
always stripped). -/
theorem C5_nonempty_amended (D T : List Char) (B : ℕ)
    (h : ∃ c ∈ D.take B, isPySpace c = false) :
    extract_topic_content D T B ≠ [] := by
  unfold extract_topic_content
  dsimp only
  split
  · intro hnil
    obtain ⟨c, hc, hcw⟩ := h
    have := pyStrip_eq_nil_imp hnil c hc
    simp [this] at hcw
  · rename_i hlong
    have hE := selectLoop_keeps_nonws B (scoredSorted D T) []
      (scoredSorted_nonws D T) (Or.inl rfl)
    rcases hE with hE | ⟨c, hc, hcw⟩
    · rw [hE] at hlong
      simp at hlong
    · intro hnil
      have := pyStrip_eq_nil_imp hnil c hc
      simp [this] at hcw

/-- Witness for C5's amended form at a concrete document. -/
theorem C5_nonempty_amended_witness :
    (∃ c ∈ ("hello".toList).take 15000, isPySpace c = false) ∧
      extract_topic_content ("hello".toList) ("x".toList) 15000 ≠ [] :=
  ⟨by decide, C5_nonempty_amended ("hello".toList) ("x".toList) 15000 (by decide)⟩

unseal Rat.mul Rat.add Rat.inv in
/-- C6 as stated is falsified by the verbatim fallback: in
`"zzz\n\nqqq"` with topic `"zzz"`, the section `"zzz"` scores positively
and fits the budget, the section `"qqq"` scores 0 — yet the selector
output (5 chars) is under the 1000-character threshold, so the fallback
returns the document verbatim and the zero-scored section's text appears
in the result. -/
theorem C6_counterexample :
    (∃ s ∈ _split_into_sections ("zzz\n\nqqq".toList),
        0 < _calculate_relevance_score s (_extract_keywords ("zzz".toList)) ∧
          s.length ≤ 15000) ∧
      ("qqq".toList ∈ _split_into_sections ("zzz\n\nqqq".toList)) ∧
      _calculate_relevance_score ("qqq".toList) (_extract_keywords ("zzz".toList)) = 0 ∧
      containsSub ("qqq".toList)
        (extract_topic_content ("zzz\n\nqqq".toList) ("zzz".toList) 15000) = true := by
  refine ⟨⟨"zzz".toList, ?_, ?_, ?_⟩, ?_, ?_, ?_⟩ <;> decide

/-- C6 amended: when the selector output reaches the 1000-character
threshold — so the verbatim fallback is not taken — the returned string is
the strip of the selector's output, and every section available to the
selector has a strictly positive score: zero-scored sections are excluded
from selection and can reach the output only through the fallback. -/
theorem C6_zero_score_amended (D T : List Char) (B : ℕ)
    (h : 1000 ≤ (selectLoop B (scoredSorted D T) []).length) :
    extract_topic_content D T B = pyStrip (selectLoop B (scoredSorted D T) []) ∧
      ∀ p ∈ scoredSorted D T, 0 < p.1 := by
  constructor
  · unfold extract_topic_content
    dsimp only
    rw [if_neg (by omega)]
  · intro p hp
    have hmem := mem_sortDesc hp
    exact of_decide_eq_true (List.mem_filter.1 hmem).2

unseal Rat.mul Rat.add Rat.inv in
/-- Witness for C6's amended form: a 1200-character relevant document in
which the selector output passes the threshold. -/
theorem C6_zero_score_amended_witness :
    (1000 ≤ (selectLoop 15000
        (scoredSorted ((List.replicate 300 ("zzz ".toList)).flatten) ("zzz".toList))
        []).length) ∧
      (extract_topic_content ((List.replicate 300 ("zzz ".toList)).flatten)
          ("zzz".toList) 15000 =
        pyStrip (selectLoop 15000
          (scoredSorted ((List.replicate 300 ("zzz ".toList)).flatten) ("zzz".toList))
          []) ∧
        ∀ p ∈ scoredSorted ((List.replicate 300 ("zzz ".toList)).flatten)
            ("zzz".toList), 0 < p.1) :=
  ⟨by decide,
    C6_zero_score_amended ((List.replicate 300 ("zzz ".toList)).flatten)
      ("zzz".toList) 15000 (by decide)⟩

/-- Inserting below everything of equal key appends at the end. -/
theorem insertDesc_append_of_not_lt (p : ℚ × List Char) :
    ∀ l : List (ℚ × List Char), (∀ q ∈ l, ¬q.1 < p.1) → insertDesc p l = l ++ [p] := by
  intro l
  induction l with
  | nil => intro _; rfl
  | cons r rest ih =>
    intro hall
    simp only [insertDesc]
    rw [if_neg (hall r (by simp)), ih fun q hq => hall q (List.mem_cons_of_mem _ hq)]
    rfl

/-- The stable sort leaves a constant-key list unchanged (ties keep
original order). -/
theorem sortDesc_const_key (k : ℚ) :
    ∀ (l acc : List (ℚ × List Char)), (∀ p ∈ l, p.1 = k) → (∀ q ∈ acc, q.1 = k) →
      l.foldl (fun a p => insertDesc p a) acc = acc ++ l := by
  intro l
  induction l with
  | nil => intro acc _ _; simp
  | cons p rest ih =>
    intro acc hl hacc
    simp only [List.foldl_cons]
    rw [ih (insertDesc p acc)
        (fun q hq => hl q (List.mem_cons_of_mem _ hq))
        (fun q hq => by
          rcases mem_insertDesc hq with h | h
          · rw [h]; exact hl p (by simp)
          · exact hacc q h),
      insertDesc_append_of_not_lt p acc
        (fun q hq => by rw [hacc q hq, hl p (by simp)]; exact lt_irrefl k)]
    simp

/-- C10: with the empty topic, the keyword list is exactly `[""]`; the
empty keyword contributes weight 0 but is a substring of every first
line, so every section scores exactly 10; hence no section is excluded
as zero-scored and the stable sort keeps all sections in original
document order. -/
theorem C10_empty_topic :
    _extract_keywords [] = [[]] ∧
      (∀ sec : List Char, _calculate_relevance_score sec (_extract_keywords []) = 10) ∧
      ∀ D : List Char,
        scoredSorted D [] = (_split_into_sections D).map fun s => ((10 : ℚ), s) := by
  have hkw : _extract_keywords [] = [[]] := rfl
  have hscore : ∀ sec : List Char,
      _calculate_relevance_score sec (_extract_keywords []) = 10 := by
    intro sec
    rw [hkw]
    unfold _calculate_relevance_score
    simp only [List.foldl_cons, List.foldl_nil, List.length_nil, Nat.cast_zero,
      zero_div, mul_zero, add_zero]
    have hpre : containsSub [] (pyLower ((pySplit sec ['\n']).headD [])) = true := by
      unfold containsSub
      simp [List.isPrefixOf]
    rw [hpre]
    norm_num
  refine ⟨hkw, hscore, ?_⟩
  intro D
  unfold scoredSorted
  rw [List.map_congr_left fun s _ => by rw [hscore s]]
  rw [List.filter_eq_self.2 (by
    intro p hp
    rcases List.mem_map.1 hp with ⟨s, _, rfl⟩
    exact show decide ((0 : ℚ) < 10) = true by decide)]
  exact sortDesc_const_key 10 _ []
    (fun p hp => by rcases List.mem_map.1 hp with ⟨s, _, rfl⟩; rfl)
    (by simp)

/-- Whitespace skipping does not consume an opening bracket. -/
theorem skipWs_cons_bracket (t : List Char) : skipWs ('[' :: t) = '[' :: t := by
  unfold skipWs
  rw [List.dropWhile_cons, if_neg (by decide)]

/-- A successful `parseF` value-parse of text whose first token is `[`
yields an array. -/
theorem parseF_val_bracket :
    ∀ {fuel : ℕ} {s r rest : List Char} {res : PRes},
      parseF fuel .val s = some (res, rest) → skipWs s = '[' :: r →
      ∃ l, res = .v (.jarr l) := by
  intro fuel s r rest res hp hs
  match fuel with
  | 0 => simp [parseF] at hp
  | fuel + 1 =>
    rw [parseF, hs] at hp
    dsimp only at hp
    rw [if_neg (by decide), if_pos rfl] at hp
    split at hp
    · rename_i l rest' _
      exact ⟨l, (by injection hp with h; injection h with h1 _; exact h1.symm)⟩
    · simp at hp

/-- A successful `loads` of text starting with `[` yields an array. -/
theorem loads_bracket {s r : List Char} {v : JVal}
    (hl : loads s = some v) (hs : skipWs s = '[' :: r) : ∃ l, v = .jarr l := by
  unfold loads at hl
  split at hl
  · rename_i x rest hp
    split at hl
    · obtain ⟨l, hres⟩ := parseF_val_bracket hp hs
      injection hres with hx
      exact ⟨l, by injection hl with h; rw [← h, hx]⟩
    · exact absurd hl (by simp)
  · exact absurd hl (by simp)

/-- `directParse` on text starting with `[` returns an array. -/
theorem directParse_bracket (t : List Char) :
    ∃ l, directParse ('[' :: t) = JVal.jarr l := by
  unfold directParse
  split
  · rename_i v hv
    obtain ⟨l, hl⟩ := loads_bracket hv (skipWs_cons_bracket t)
    exact ⟨l, hl⟩
  · have hrep : replaceQuote ('[' :: t) = '[' :: replaceQuote t := by
      unfold replaceQuote
      rw [List.flatMap_cons, if_neg (by decide)]
      rfl
    split
    · rename_i v hv
      rw [hrep] at hv
      obtain ⟨l, hl⟩ := loads_bracket hv (skipWs_cons_bracket _)
      exact ⟨l, hl⟩
    · exact ⟨[], rfl⟩

/-- The tail-cleanup regex never matches at a non-`opener` head, so the
substitution keeps the head character. -/
theorem subTail_cons {op c : Char} (t : List Char) (hc : c ≠ op) :
    subTail op (c :: t) = c :: t ∨ ∃ t', subTail op (c :: t) = c :: t' := by
  unfold subTail
  split
  · exact Or.inl rfl
  · rename_i i is hf
    right
    have hi : i ∈ (List.range (c :: t).length).filter
        (fun i => matchTailPat op ((c :: t).drop i)) := by
      rw [hf]; exact List.mem_cons_self _ _
    have hmatch := (List.mem_filter.1 hi).2
    match i with
    | 0 =>
      rw [List.drop_zero] at hmatch
      unfold matchTailPat at hmatch
      simp only [Bool.and_eq_true, decide_eq_true_eq] at hmatch
      exact absurd hmatch.1 hc
    | i + 1 => exact ⟨t.take i, by rw [List.take_succ_cons]⟩

/-- `closeBracket` keeps the head character. -/
theorem closeBracket_cons (c : Char) (t : List Char) :
    ∃ t', closeBracket (c :: t) = c :: t' := by
  unfold closeBracket
  split
  · exact ⟨t, rfl⟩
  · exact ⟨t ++ [']'], rfl⟩

/-- `salvageParse` on text starting with `[` returns an array. -/
theorem salvageParse_bracket (t : List Char) :
    ∃ l, salvageParse ('[' :: t) = JVal.jarr l := by
  unfold salvageParse
  split
  · rename_i v hv
    obtain ⟨l, hl⟩ := loads_bracket hv (skipWs_cons_bracket t)
    exact ⟨l, hl⟩
  · obtain ⟨t1, ht1⟩ : ∃ t1, subTail ',' ('[' :: t) = '[' :: t1 := by
      rcases subTail_cons t (show '[' ≠ ',' by decide) with h | ⟨t', h⟩
      · exact ⟨t, h⟩
      · exact ⟨t', h⟩
    rw [ht1]
    obtain ⟨t2, ht2⟩ : ∃ t2, subTail ':' ('[' :: t1) = '[' :: t2 := by
      rcases subTail_cons t1 (show '[' ≠ ':' by decide) with h | ⟨t', h⟩
      · exact ⟨t1, h⟩
      · exact ⟨t', h⟩
    rw [ht2]
    obtain ⟨t3, ht3⟩ := closeBracket_cons '[' t2
    rw [ht3]
    split
    · rename_i v hv
      obtain ⟨l, hl⟩ := loads_bracket hv (skipWs_cons_bracket t3)
      exact ⟨l, hl⟩
    · exact ⟨[], rfl⟩

/-- `truncationSalvage` on text starting with `[` returns an array. -/
theorem truncationSalvage_bracket (t : List Char) :
    ∃ l, truncationSalvage ('[' :: t) = JVal.jarr l := by
  unfold truncationSalvage
  split
  · rw [List.take_succ_cons]
    exact salvageParse_bracket _
  · split
    · rw [List.take_succ_cons]
      exact salvageParse_bracket _
    · exact ⟨[], rfl⟩

/-- A non-negative `pyFind` result is an index at which the pattern
occurs. -/
theorem pyFind_nonneg_hit {s sub : List Char} (h : 0 ≤ pyFind s sub) :
    sub.isPrefixOf (s.drop (pyFind s sub).toNat) = true := by
  unfold pyFind at h ⊢
  generalize hL : (List.range (s.length + 1)).filter
    (fun i => sub.isPrefixOf (s.drop i)) = L at h ⊢
  cases L with
  | nil => simp at h
  | cons i is =>
    have hi : i ∈ (List.range (s.length + 1)).filter
        (fun j => sub.isPrefixOf (s.drop j)) := by
      rw [hL]
      exact List.mem_cons_self _ _
    simpa using (List.mem_filter.1 hi).2

/-- A true `isPrefixOf ['[']` exposes the head constructor. -/
theorem bracket_head {x : List Char} (h : (['['] : List Char).isPrefixOf x = true) :
    ∃ w, x = '[' :: w := by
  match x with
  | [] => simp [List.isPrefixOf] at h
  | c :: w =>
    have hc : '[' = c := by
      simpa [List.isPrefixOf] using h
    exact ⟨w, by rw [← hc]⟩

/-- C3: the recovery pipeline is total — for every raw response string
(empty, lone `[`, balanced or unbalanced brackets, anything), the parse of
`generate_learning_chunks` produces an array of records (possibly empty)
and never propagates an error: every tier's failure falls through to the
next and the final tier returns the empty array. -/
theorem C3_recovery_total (raw : List Char) :
    ∃ l, generate_learning_chunks_parse raw = JVal.jarr l := by
  unfold generate_learning_chunks_parse
  set text := pyStrip (bracketTrim (stripMarkers (pyStrip raw))) with htext
  unfold directOrSalvage
  split
  · rename_i hcond
    simp only [Bool.and_eq_true, decide_eq_true_eq] at hcond
    obtain ⟨hge, hgt⟩ := hcond
    obtain ⟨w, hw⟩ := bracket_head (pyFind_nonneg_hit hge)
    rw [List.drop_take, hw]
    obtain ⟨k, hk⟩ : ∃ k,
        (pyRfind text [']']).toNat + 1 - (pyFind text ['[']).toNat = k + 1 :=
      ⟨(pyRfind text [']']).toNat - (pyFind text ['[']).toNat, by omega⟩
    rw [hk, List.take_succ_cons]
    exact directParse_bracket _
  · split
    · rename_i hcond2
      simp only [Bool.and_eq_true, decide_eq_true_eq] at hcond2
      obtain ⟨hge, _⟩ := hcond2
      obtain ⟨w, hw⟩ := bracket_head (pyFind_nonneg_hit hge)
      rw [hw]
      exact truncationSalvage_bracket w
    · exact ⟨[], rfl⟩

/-- A true `isPrefixOf` decomposes the string. -/
theorem isPrefixOf_eq_append {p x : List Char} (h : p.isPrefixOf x = true) :
    x = p ++ x.drop p.length := by
  obtain ⟨t, ht⟩ := List.isPrefixOf_iff_prefix.1 h
  rw [← ht, List.drop_left]

/-- The split scanner never returns an empty list of parts. -/
theorem splitOnSubAux_ne_nil (sep : List Char) :
    ∀ (fuel : ℕ) (s acc : List Char), splitOnSubAux sep fuel s acc ≠ [] := by
  intro fuel
  induction fuel with
  | zero =>
    intro s acc
    cases s <;> simp [splitOnSubAux]
  | succ n ih =>
    intro s acc
    cases s with
    | nil => simp [splitOnSubAux]
    | cons c rest =>
      simp only [splitOnSubAux]
      split
      · simp
      · exact ih rest (c :: acc)

/-- `sepJoin` of a non-empty list starts with one separator. -/
theorem sepJoin_cons (sep y : List Char) (l : List (List Char)) :
    sepJoin sep (y :: l) = sep ++ joinParts sep (y :: l) := by
  simp [sepJoin, joinParts, List.append_assoc]

/-- Rejoining the parts of `pySplit` with the separator restores the
string (generalized over the scanner's fuel and accumulator). -/
theorem splitOnSubAux_joinParts (sep : List Char) (hsep : sep ≠ []) :
    ∀ (fuel : ℕ) (s acc : List Char), s.length ≤ fuel →
      joinParts sep (splitOnSubAux sep fuel s acc) = acc.reverse ++ s := by
  intro fuel
  induction fuel with
  | zero =>
    intro s acc h
    rw [List.eq_nil_of_length_eq_zero (Nat.le_zero.1 h)]
    simp [splitOnSubAux, joinParts, sepJoin]
  | succ n ih =>
    intro s acc h
    cases s with
    | nil => simp [splitOnSubAux, joinParts, sepJoin]
    | cons c rest =>
      simp only [splitOnSubAux]
      split
      · rename_i hpre
        cases hrec : splitOnSubAux sep n (rest.drop (sep.length - 1)) [] with
        | nil => exact absurd hrec (splitOnSubAux_ne_nil sep n _ [])
        | cons y l =>
          have hdec := isPrefixOf_eq_append hpre
          obtain ⟨m, hm⟩ := Nat.exists_eq_succ_of_ne_zero
            (show sep.length ≠ 0 by simpa using hsep)
          rw [hm, List.drop_succ_cons] at hdec
          have hlen : (rest.drop (sep.length - 1)).length ≤ n := by
            have h1 : (rest.drop (sep.length - 1)).length = rest.length - (sep.length - 1) := by
              simp
            have h2 : rest.length + 1 ≤ n + 1 := by simpa using h
            omega
          calc joinParts sep (acc.reverse :: y :: l)
              = acc.reverse ++ sepJoin sep (y :: l) := rfl
            _ = acc.reverse ++ (sep ++ joinParts sep (y :: l)) := by
                rw [sepJoin_cons]
            _ = acc.reverse ++ (sep ++ (rest.drop (sep.length - 1))) := by
                rw [← hrec, ih _ [] hlen]
                simp
            _ = acc.reverse ++ (c :: rest) := by
                have hms : sep.length - 1 = m := by omega
                rw [hms, ← hdec]
      · rw [ih rest (c :: acc) (by simpa using Nat.le_of_succ_le_succ h)]
        simp

/-- The line loop's consumed text is the document plus one artificial
trailing newline: summing `line + '\n'` over `content.split('\n')`. -/
theorem joinLinesNl_split (s : List Char) :
    joinLinesNl (pySplit s ['\n']) = s ++ ['\n'] := by
  suffices haux : ∀ (fuel : ℕ) (t acc : List Char), t.length ≤ fuel →
      joinLinesNl (splitOnSubAux ['\n'] fuel t acc) = acc.reverse ++ t ++ ['\n'] by
    simpa using haux s.length s [] le_rfl
  intro fuel
  induction fuel with
  | zero =>
    intro t acc h
    rw [List.eq_nil_of_length_eq_zero (Nat.le_zero.1 h)]
    simp [splitOnSubAux, joinLinesNl]
  | succ n ih =>
    intro t acc h
    cases t with
    | nil => simp [splitOnSubAux, joinLinesNl]
    | cons c rest =>
      simp only [splitOnSubAux]
      split
      · rename_i hpre
        have hc : c = '\n' := by
          have := isPrefixOf_eq_append hpre
          simpa using congrArg (fun l => l.headD ' ') this
        simp only [joinLinesNl, List.map_cons, List.flatten_cons,
          show (['\n'] : List Char).length - 1 = 0 from rfl, List.drop_zero]
        have hrw := ih rest [] (by simpa using Nat.le_of_succ_le_succ h)
        simp only [joinLinesNl] at hrw
        rw [hrw, hc]
        simp
      · rw [ih rest (c :: acc) (by simpa using Nat.le_of_succ_le_succ h)]
        simp

/-- The concrete strip decomposition: leading whitespace, the strip, and
trailing whitespace. -/
theorem pyStrip_decomp (s : List Char) :
    s = s.takeWhile isPySpace ++ pyStrip s ++
      ((s.dropWhile isPySpace).reverse.takeWhile isPySpace).reverse := by
  conv_lhs => rw [← List.takeWhile_append_dropWhile isPySpace s]
  rw [List.append_assoc]
  congr 1
  conv_lhs => rw [← List.reverse_reverse (s.dropWhile isPySpace),
    ← List.takeWhile_append_dropWhile isPySpace (s.dropWhile isPySpace).reverse]
  rw [List.reverse_append]
  rfl

/-- Both whitespace flanks of the decomposition are whitespace-only. -/
theorem takeWhile_all_ws (x : List Char) :
    (x.takeWhile isPySpace).all isPySpace = true := by
  rw [List.all_eq_true]
  intro c hc
  exact List.mem_takeWhile_imp hc

/-- If a string ends in `'\n'` and is not whitespace-only, its trailing
whitespace flank is non-empty. -/
theorem trailing_ws_ne_nil {s : List Char} (hlast : s.getLast? = some '\n')
    (hne : s.dropWhile isPySpace ≠ []) :
    ((s.dropWhile isPySpace).reverse.takeWhile isPySpace).reverse ≠ [] := by
  have hsuf : s.dropWhile isPySpace <:+ s := List.dropWhile_suffix isPySpace
  obtain ⟨u, hu⟩ := hsuf
  have hlast2 : (s.dropWhile isPySpace).getLast? = some '\n' := by
    rw [← hu] at hlast
    rwa [List.getLast?_append_of_ne_nil u hne] at hlast
  have hhead : (s.dropWhile isPySpace).reverse.head? = some '\n' := by
    rw [List.head?_reverse]
    exact hlast2
  cases hrev : (s.dropWhile isPySpace).reverse with
  | nil => simp [hrev] at hhead
  | cons c cs =>
    rw [hrev] at hhead
    have hc : c = '\n' := by simpa using hhead
    simp [hrev, List.takeWhile_cons, hc, isPySpace]

/-- Gluing commutes with snoc on both lists. -/
theorem glueWs_append (w s : List Char) :
    ∀ (wss secs : List (List Char)), wss.length = secs.length →
      glueWs (wss ++ [w]) (secs ++ [s]) = glueWs wss secs ++ w ++ s := by
  intro wss
  induction wss with
  | nil =>
    intro secs hlen
    rw [List.length_nil] at hlen
    rw [List.eq_nil_of_length_eq_zero hlen.symm]
    simp [glueWs]
  | cons w0 ws ih =>
    intro secs hlen
    cases secs with
    | nil => simp at hlen
    | cons s0 ss =>
      have hlen2 : ws.length = ss.length := by simpa using hlen
      calc glueWs ((w0 :: ws) ++ [w]) ((s0 :: ss) ++ [s])
          = w0 ++ s0 ++ glueWs (ws ++ [w]) (ss ++ [s]) := rfl
        _ = w0 ++ s0 ++ (glueWs ws ss ++ w ++ s) := by rw [ih ss hlen2]
        _ = glueWs (w0 :: ws) (s0 :: ss) ++ w ++ s := by
            show _ = w0 ++ s0 ++ glueWs ws ss ++ w ++ s
            simp [List.append_assoc]

/-- Invariant of the segmenter's line loop: the consumed text is always a
whitespace-interleaved gluing of the sections emitted so far, and the loop
preserves this through both the header and the accumulate branches.  The
final whitespace tail is non-empty (it absorbs the loop's artificial
trailing newline). -/
theorem splitLoop_glue :
    ∀ (lines : List (List Char)) (current : List Char) (secs : List (List Char))
      (p : List Char) (wss : List (List Char)) (wtail : List Char),
      wss.length = secs.length →
      (∀ w ∈ wss, w.all isPySpace = true) →
      wtail.all isPySpace = true →
      p = glueWs wss secs ++ wtail →
      (current = [] ∨ current.getLast? = some '\n') →
      (current ≠ [] ∨ lines ≠ []) →
      ∃ wss' wtail', wss'.length = (splitLoop lines current secs).length ∧
        (∀ w ∈ wss', w.all isPySpace = true) ∧ wtail'.all isPySpace = true ∧
        wtail' ≠ [] ∧
        p ++ current ++ joinLinesNl lines =
          glueWs wss' (splitLoop lines current secs) ++ wtail' := by
  intro lines
  induction lines with
  | nil =>
    intro current secs p wss wtail hlen hwss hwtail hp hcur hne
    have hcne : current ≠ [] := by
      rcases hne with h | h
      · exact h
      · exact absurd rfl h
    have hlastnl : current.getLast? = some '\n' := by
      rcases hcur with h | h
      · exact absurd h hcne
      · exact h
    simp only [splitLoop]
    split
    · rename_i hempty
      refine ⟨wss, wtail ++ current, hlen, hwss, ?_, ?_, ?_⟩
      · rw [List.all_append, hwtail]
        simp only [Bool.true_and]
        rw [List.all_eq_true]
        exact pyStrip_eq_nil_imp (by simpa [List.isEmpty_iff] using hempty)
      · simp [hcne]
      · rw [hp]
        simp [joinLinesNl, List.append_assoc]
    · rename_i hempty
      refine ⟨wss ++ [wtail ++ current.takeWhile isPySpace],
        ((current.dropWhile isPySpace).reverse.takeWhile isPySpace).reverse,
        ?_, ?_, ?_, ?_, ?_⟩
      · simp [hlen]
      · intro w hw
        rcases List.mem_append.1 hw with h | h
        · exact hwss w h
        · rw [List.mem_singleton.1 h, List.all_append, hwtail]
          simp only [Bool.true_and]
          exact takeWhile_all_ws current
      · rw [List.all_eq_true]
        intro c hc
        rw [List.mem_reverse] at hc
        exact List.mem_takeWhile_imp hc
      · refine trailing_ws_ne_nil hlastnl ?_
        intro h0
        refine hempty ?_
        have hstrip : pyStrip current = [] := by
          unfold pyStrip
          rw [h0]
          rfl
        simp [hstrip]
      · rw [hp, glueWs_append _ _ wss secs hlen]
        conv_lhs =>
          rw [show current = current.takeWhile isPySpace ++ pyStrip current ++
            ((current.dropWhile isPySpace).reverse.takeWhile isPySpace).reverse from
            pyStrip_decomp current]
        simp [joinLinesNl, List.append_assoc]
  | cons line rest ih =>
    intro current secs p wss wtail hlen hwss hwtail hp hcur hne
    simp only [splitLoop]
    split
    · rename_i hcond
      rw [Bool.and_eq_true] at hcond
      have hsne : ¬(pyStrip current).isEmpty = true := by simpa using hcond.2
      have hcne : current ≠ [] := by
        intro h0
        refine hsne ?_
        rw [h0]
        rfl
      have hlastnl : current.getLast? = some '\n' := by
        rcases hcur with h | h
        · exact absurd h hcne
        · exact h
      have hglue : p ++ current =
          glueWs (wss ++ [wtail ++ current.takeWhile isPySpace])
            (secs ++ [pyStrip current]) ++
          ((current.dropWhile isPySpace).reverse.takeWhile isPySpace).reverse := by
        rw [glueWs_append _ _ wss secs hlen, hp]
        conv_lhs =>
          rw [show current = current.takeWhile isPySpace ++ pyStrip current ++
            ((current.dropWhile isPySpace).reverse.takeWhile isPySpace).reverse from
            pyStrip_decomp current]
        simp [List.append_assoc]
      obtain ⟨wss', wtail', h1, h2, h3, h4, h5⟩ := ih (line ++ ['\n'])
        (secs ++ [pyStrip current]) (p ++ current)
        (wss ++ [wtail ++ current.takeWhile isPySpace])
        (((current.dropWhile isPySpace).reverse.takeWhile isPySpace).reverse)
        (by simp [hlen])
        (by
          intro w hw
          rcases List.mem_append.1 hw with h | h
          · exact hwss w h
          · rw [List.mem_singleton.1 h, List.all_append, hwtail]
            simp only [Bool.true_and]
            exact takeWhile_all_ws current)
        (by
          rw [List.all_eq_true]
          intro c hc
          rw [List.mem_reverse] at hc
          exact List.mem_takeWhile_imp hc)
        hglue
        (Or.inr (by rw [List.getLast?_append_of_ne_nil line (by simp)]; rfl))
        (Or.inl (by simp))
      refine ⟨wss', wtail', h1, h2, h3, h4, ?_⟩
      rw [← h5]
      simp [joinLinesNl, List.append_assoc]
    · obtain ⟨wss', wtail', h1, h2, h3, h4, h5⟩ := ih (current ++ line ++ ['\n'])
        secs p wss wtail hlen hwss hwtail hp
        (Or.inr (by
          rw [List.append_assoc, List.getLast?_append_of_ne_nil current (by simp),
            List.getLast?_append_of_ne_nil line (by simp)]
          rfl))
        (Or.inl (by simp))
      refine ⟨wss', wtail', h1, h2, h3, h4, ?_⟩
      rw [← h5]
      simp [joinLinesNl, List.append_assoc]

/-- Unfolding equation for `filterStrip`. -/
theorem filterStrip_cons (p : List Char) (ps : List (List Char)) :
    filterStrip (p :: ps) =
      if (pyStrip p).isEmpty = true then filterStrip ps
      else pyStrip p :: filterStrip ps := by
  unfold filterStrip
  simp only [List.map_cons, List.filter_cons]
  by_cases h : (pyStrip p).isEmpty = true <;> simp [h]

/-- The paragraph fallback also yields a whitespace-interleaved gluing:
joining the split paragraphs with `"\n\n"` is a gluing of the stripped,
non-empty paragraphs with whitespace in between. -/
theorem paraGlue :
    ∀ ps : List (List Char),
      ∃ wss wtail,
        wss.length = (filterStrip ps).length ∧
        (∀ w ∈ wss, w.all isPySpace = true) ∧ wtail.all isPySpace = true ∧
        joinParts nl2 ps = glueWs wss (filterStrip ps) ++ wtail := by
  intro ps
  induction ps with
  | nil => exact ⟨[], [], rfl, by simp, by simp, by simp [joinParts, glueWs, filterStrip]⟩
  | cons p rest ih =>
    obtain ⟨wssR, wtailR, hlenR, hwssR, hwtailR, heqR⟩ := ih
    have hdecomp := pyStrip_decomp p
    have htw := takeWhile_all_ws p
    have htrail : (((p.dropWhile isPySpace).reverse.takeWhile isPySpace).reverse).all
        isPySpace = true := by
      rw [List.all_eq_true]
      intro c hc
      rw [List.mem_reverse] at hc
      exact List.mem_takeWhile_imp hc
    have hnl2 : (nl2.all isPySpace) = true := by decide
    cases rest with
    | nil =>
      by_cases hps : (pyStrip p).isEmpty = true
      · refine ⟨[], p, by rw [filterStrip_cons, if_pos hps]; rfl, by simp, ?_, ?_⟩
        · rw [List.all_eq_true]
          exact pyStrip_eq_nil_imp (by simpa [List.isEmpty_iff] using hps)
        · rw [filterStrip_cons, if_pos hps]
          simp [joinParts, sepJoin, glueWs, filterStrip]
      · refine ⟨[p.takeWhile isPySpace],
          ((p.dropWhile isPySpace).reverse.takeWhile isPySpace).reverse,
          by rw [filterStrip_cons, if_neg hps]; rfl,
          ?_, htrail, ?_⟩
        · intro w hw
          rw [List.mem_singleton.1 hw]
          exact htw
        · rw [filterStrip_cons, if_neg hps]
          have hj : joinParts nl2 [p] = p := by simp [joinParts, sepJoin]
          rw [hj]
          conv_lhs => rw [hdecomp]
          simp [glueWs, filterStrip, List.append_assoc]
    | cons q qs =>
      have hjoin : joinParts nl2 (p :: q :: qs) = p ++ nl2 ++ joinParts nl2 (q :: qs) := by
        simp [joinParts, sepJoin_cons, List.append_assoc]
      by_cases hps : (pyStrip p).isEmpty = true
      · have hpws : p.all isPySpace = true := by
          rw [List.all_eq_true]
          exact pyStrip_eq_nil_imp (by simpa [List.isEmpty_iff] using hps)
        cases wssR with
        | nil =>
          have hfr : filterStrip (q :: qs) = [] :=
            List.eq_nil_of_length_eq_zero (by simpa using hlenR.symm)
          refine ⟨[], p ++ nl2 ++ wtailR,
            by rw [filterStrip_cons, if_pos hps, hfr], by simp, ?_, ?_⟩
          · simp only [List.all_append, hpws, hnl2, hwtailR]
            rfl
          · rw [filterStrip_cons, if_pos hps, hfr, hjoin, heqR, hfr]
            simp [glueWs, List.append_assoc]
        | cons w1 ws1 =>
          cases hfr : filterStrip (q :: qs) with
          | nil => rw [hfr] at hlenR; simp at hlenR
          | cons s1 ss =>
            refine ⟨(p ++ nl2 ++ w1) :: ws1, wtailR, ?_, ?_, hwtailR, ?_⟩
            · rw [filterStrip_cons, if_pos hps, hfr]
              rw [hfr] at hlenR
              simpa using hlenR
            · intro w hw
              rcases List.mem_cons.1 hw with h | h
              · rw [h]
                simp only [List.all_append, hpws, hnl2]
                simpa using hwssR w1 (by simp)
              · exact hwssR w (List.mem_cons_of_mem _ h)
            · rw [filterStrip_cons, if_pos hps, hfr, hjoin, heqR, hfr]
              simp [glueWs, List.append_assoc]
      · cases wssR with
        | nil =>
          have hfr : filterStrip (q :: qs) = [] :=
            List.eq_nil_of_length_eq_zero (by simpa using hlenR.symm)
          refine ⟨[p.takeWhile isPySpace],
            ((p.dropWhile isPySpace).reverse.takeWhile isPySpace).reverse ++ nl2 ++ wtailR,
            by rw [filterStrip_cons, if_neg hps, hfr]; rfl, ?_, ?_, ?_⟩
          · intro w hw
            rw [List.mem_singleton.1 hw]
            exact htw
          · simp only [List.all_append, htrail, hnl2, hwtailR]
            rfl
          · rw [filterStrip_cons, if_neg hps, hfr, hjoin, heqR, hfr]
            conv_lhs => rw [hdecomp]
            simp [glueWs, List.append_assoc]
        | cons w1 ws1 =>
          cases hfr : filterStrip (q :: qs) with
          | nil => rw [hfr] at hlenR; simp at hlenR
          | cons s1 ss =>
            refine ⟨p.takeWhile isPySpace ::
              (((p.dropWhile isPySpace).reverse.takeWhile isPySpace).reverse ++ nl2 ++ w1)
                :: ws1, wtailR, ?_, ?_, hwtailR, ?_⟩
            · rw [filterStrip_cons, if_neg hps, hfr]
              rw [hfr] at hlenR
              simpa using hlenR
            · intro w hw
              rcases List.mem_cons.1 hw with h | h
              · rw [h]
                exact htw
              · rcases List.mem_cons.1 h with h2 | h2
                · rw [h2]
                  simp only [List.all_append, htrail, hnl2]
                  simpa using hwssR w1 (by simp)
                · exact hwssR w (List.mem_cons_of_mem _ h2)
            · rw [filterStrip_cons, if_neg hps, hfr, hjoin, heqR, hfr]
              conv_lhs => rw [hdecomp]
              simp [glueWs, List.append_assoc]

/-- C9 as stated is falsified on the header path: for
`"Intro\n# H x\nbody"` the header split is taken (2 sections, so the
claim's paragraph-fallback whitespace proviso does not apply), yet the
exact concatenation of the sections drops the newline between them and
does not reconstruct the document. -/
theorem C9_counterexample :
    ¬((splitLoop (pySplit ("Intro\n# H x\nbody".toList) ['\n']) [] []).length ≤ 1) ∧
      _split_into_sections ("Intro\n# H x\nbody".toList) =
        ["Intro".toList, "# H x\nbody".toList] ∧
      (_split_into_sections ("Intro\n# H x\nbody".toList)).flatten ≠
        "Intro\n# H x\nbody".toList := by
  refine ⟨?_, ?_, ?_⟩ <;> decide

/-- C9 amended: on both paths the sections are non-overlapping, in
original document order, and reconstruct the document up to the boundary
whitespace dropped by stripping — the document is exactly the sections
glued in order with whitespace-only gaps (both the header path and the
paragraph fallback drop boundary whitespace). -/
theorem C9_sections_amended (D : List Char) :
    ∃ wss wtail, wss.length = (_split_into_sections D).length ∧
      (∀ w ∈ wss, w.all isPySpace = true) ∧ wtail.all isPySpace = true ∧
      D = glueWs wss (_split_into_sections D) ++ wtail := by
  unfold _split_into_sections
  split
  · have hD : joinParts nl2 (pySplit D nl2) = D := by
      have := splitOnSubAux_joinParts nl2 (by decide) D.length D [] le_rfl
      simpa [pySplit] using this
    obtain ⟨wss, wtail, h1, h2, h3, h4⟩ := paraGlue (pySplit D nl2)
    refine ⟨wss, wtail, h1, h2, h3, ?_⟩
    conv_lhs => rw [← hD]
    exact h4
  · have hne : pySplit D ['\n'] ≠ [] := splitOnSubAux_ne_nil ['\n'] D.length D []
    obtain ⟨wss, wtail, h1, h2, h3, h4, h5⟩ := splitLoop_glue (pySplit D ['\n'])
      [] [] [] [] [] rfl (by simp) rfl rfl (Or.inl rfl) (Or.inr hne)
    rcases List.eq_nil_or_concat wtail with h0 | ⟨winit, c, hwc⟩
    · exact absurd h0 h4
    · rw [List.concat_eq_append] at hwc
      have heq : D ++ ['\n'] =
          (glueWs wss (splitLoop (pySplit D ['\n']) [] []) ++ winit) ++ [c] := by
        have h5' := h5
        rw [joinLinesNl_split D, hwc] at h5'
        simpa [List.append_assoc] using h5'
      have hinj := List.append_inj' heq (by rfl)
      refine ⟨wss, winit, h1, h2, ?_, hinj.1⟩
      rw [hwc, List.all_append, Bool.and_eq_true] at h3
      exact h3.1

/-- C2: the truncated response `[{"id":1,"title":"A"},{"id":2,"tit` is
salvaged to exactly one record, the mapping with `"id" ↦ 1` and
`"title" ↦ "A"`. -/
theorem C2_truncation_salvage :
    generate_learning_chunks_parse ("[\x7b\"id\":1,\"title\":\"A\"\x7d,\x7b\"id\":2,\"tit".toList) =
      .jarr [.jobj [("id".toList, .jnum 1), ("title".toList, .jstr ("A".toList))]] := by
  rfl

end LearnWise
